import Mathlib

/-!
Verification of the UTF-8 text primitives of `base/strings/unicode.h`.

Byte buffers are modelled as `List Nat` (each element one byte), windows
`[first, last)` as the list of bytes they span, and pointers into a buffer as
natural-number offsets.  The decoder, encoder and leading-byte length table
live in the internal header `base/strings/internal/utf8_internal.h`, which is
not part of the sources here; those definitions are modelled from the spec and
marked as such.  Everything else is translated from `unicode.h`.
-/

set_option maxHeartbeats 1000000

namespace mozc

namespace utf8_internal

/-- Modelled from the spec: the Unicode replacement character U+FFFD, used for
ill-formed sequences (constant of the missing header utf8_internal.h). -/
def kReplacementCharacter : Nat := 0xFFFD

/-- Modelled from the spec: the result of decoding one UTF-8 character from a
byte window: the code point (or the replacement), the bytes consumed, and the
well-formedness flag (DecodeResult of the missing header utf8_internal.h). -/
structure DecodeResult where
  code_point : Nat
  bytes_seen : Nat
  well_formed : Bool
deriving DecidableEq

/-- Modelled from the spec: the failed-decode result
{U+FFFD, bytes_consumed = 1, well_formed = false}. -/
def errorResult : DecodeResult :=
  { code_point := kReplacementCharacter, bytes_seen := 1, well_formed := false }

/-- Modelled from the spec: the byte length of a UTF-8 character implied by the
high bits of its leading byte; stray continuation bytes and invalid leads get
the documented fallback length 1 (OneCharLen of the missing utf8_internal.h). -/
def OneCharLen (b : Nat) : Nat :=
  if b < 0x80 then 1
  else if b < 0xC0 then 1
  else if b < 0xE0 then 2
  else if b < 0xF0 then 3
  else if b < 0xF8 then 4
  else 1

/-- Modelled from the spec: whether a byte is a UTF-8 continuation byte
(10xxxxxx). -/
def isContinuation (b : Nat) : Bool := 0x80 ≤ b && b < 0xC0

/-- Modelled from the spec: the scalar value assembled from a two-byte
sequence: the low 5 bits of the lead and the low 6 bits of the continuation. -/
def assemble2 (b c1 : Nat) : Nat := (b - 0xC0) * 64 + (c1 - 0x80)

/-- Modelled from the spec: the scalar value assembled from a three-byte
sequence. -/
def assemble3 (b c1 c2 : Nat) : Nat :=
  (b - 0xE0) * 4096 + (c1 - 0x80) * 64 + (c2 - 0x80)

/-- Modelled from the spec: the scalar value assembled from a four-byte
sequence. -/
def assemble4 (b c1 c2 c3 : Nat) : Nat :=
  (b - 0xF0) * 262144 + (c1 - 0x80) * 4096 + (c2 - 0x80) * 64 + (c3 - 0x80)

/-- Modelled from the spec: decode exactly one UTF-8 character from the byte
window [first, last), given as its list of bytes (Decode of the missing
utf8_internal.h).  Truncation, a missing continuation byte, an ill-formed lead,
an overlong encoding, a surrogate, or a value beyond 0x10FFFF all fail with
{U+FFFD, bytes_consumed = 1, well_formed = false}.  The empty window is
undefined in the source (callers check emptiness first); here it returns the
failure result. -/
def Decode : List Nat → DecodeResult
  | [] => errorResult
  | b :: rest =>
    if b < 0x80 then { code_point := b, bytes_seen := 1, well_formed := true }
    else if b < 0xC0 then errorResult
    else if b < 0xE0 then
      match rest with
      | c1 :: _ =>
        if isContinuation c1 then
          if assemble2 b c1 < 0x80 then errorResult
          else { code_point := assemble2 b c1, bytes_seen := 2, well_formed := true }
        else errorResult
      | [] => errorResult
    else if b < 0xF0 then
      match rest with
      | c1 :: c2 :: _ =>
        if isContinuation c1 && isContinuation c2 then
          if assemble3 b c1 c2 < 0x800 then errorResult
          else if 0xD800 ≤ assemble3 b c1 c2 ∧ assemble3 b c1 c2 ≤ 0xDFFF then errorResult
          else { code_point := assemble3 b c1 c2, bytes_seen := 3, well_formed := true }
        else errorResult
      | _ => errorResult
    else if b < 0xF8 then
      match rest with
      | c1 :: c2 :: c3 :: _ =>
        if isContinuation c1 && isContinuation c2 && isContinuation c3 then
          if assemble4 b c1 c2 c3 < 0x10000 then errorResult
          else if 0x10FFFF < assemble4 b c1 c2 c3 then errorResult
          else { code_point := assemble4 b c1 c2 c3, bytes_seen := 4, well_formed := true }
        else errorResult
      | _ => errorResult
    else errorResult

/-- Modelled from the spec: encode a code point as its UTF-8 byte sequence;
surrogates and values beyond 0x10FFFF are replaced by the three-byte encoding
of U+FFFD (Encode of the missing utf8_internal.h). -/
def Encode (cp : Nat) : List Nat :=
  if 0xD800 ≤ cp ∧ cp ≤ 0xDFFF then [0xEF, 0xBF, 0xBD]
  else if 0x10FFFF < cp then [0xEF, 0xBF, 0xBD]
  else if cp < 0x80 then [cp]
  else if cp < 0x800 then [0xC0 + cp / 64, 0x80 + cp % 64]
  else if cp < 0x10000 then [0xE0 + cp / 4096, 0x80 + cp / 64 % 64, 0x80 + cp % 64]
  else [0xF0 + cp / 262144, 0x80 + cp / 4096 % 64, 0x80 + cp / 64 % 64, 0x80 + cp % 64]

end utf8_internal

namespace strings

/-- Fuel-indexed loop of CharsLen (unicode.h lines 350-358): count one
character and advance by OneCharLen of the leading byte until the end is
reached.  The fuel argument only makes the recursion structural; the entry
point passes the byte length, which always suffices since every step consumes
at least one byte. -/
def charsLenFuel : Nat → List Nat → Nat
  | _, [] => 0
  | 0, _ :: _ => 0
  | fuel + 1, b :: rest =>
    1 + charsLenFuel fuel ((b :: rest).drop (utf8_internal.OneCharLen b))

/-- CharsLen (unicode.h lines 350-358, string_view overload line 86): the
codepoint count of a UTF-8 string, looking only at leading bytes. -/
def CharsLen (s : List Nat) : Nat := charsLenFuel s.length s

/-- The loop of AtLeastCharsLen (unicode.h lines 360-369), recursing on the
remaining threshold n, which the loop decrements to zero. -/
def atLeastCharsLenRec : Nat → List Nat → Nat
  | _, [] => 0
  | 0, _ :: _ => 0
  | n + 1, b :: rest =>
    1 + atLeastCharsLenRec n ((b :: rest).drop (utf8_internal.OneCharLen b))

/-- AtLeastCharsLen (unicode.h lines 360-369): counts characters like CharsLen
but stops once n characters have been counted. -/
def AtLeastCharsLen (s : List Nat) (n : Nat) : Nat := atLeastCharsLenRec n s

/-- FrontChar (unicode.h lines 371-378): the <first char, rest> split of a
string.  absl::ClippedSubstr clips out-of-range requests, which the clamping
List.take / List.drop model exactly. -/
def FrontChar (s : List Nat) : List Nat × List Nat :=
  match s with
  | [] => ([], [])
  | b :: _ =>
    (s.take (utf8_internal.OneCharLen b), s.drop (utf8_internal.OneCharLen b))

/-- Fuel-indexed loop of IsValidUtf8: decode repeatedly from the start,
requiring every decode to be well-formed.  Fuel only makes the recursion
structural; the entry point passes the byte length, which always suffices. -/
def isValidUtf8Fuel : Nat → List Nat → Bool
  | _, [] => true
  | 0, _ :: _ => false
  | fuel + 1, b :: rest =>
    (utf8_internal.Decode (b :: rest)).well_formed &&
      isValidUtf8Fuel fuel
        ((b :: rest).drop (utf8_internal.Decode (b :: rest)).bytes_seen)

/-- Modelled from the spec: IsValidUtf8 (declared at unicode.h line 76, body in
the missing .cc): decode repeatedly from start to end; the string is valid iff
every decode is well-formed (a well-formed decode never passes the end). -/
def IsValidUtf8 (s : List Nat) : Bool := isValidUtf8Fuel s.length s

end strings

/-- The byte window [ptr, last) of the buffer s. -/
def window (s : List Nat) (ptr last : Nat) : List Nat := (s.take last).drop ptr

/-- Utf8CharIterator (unicode.h lines 138-202): the cursor position, the end
position, and the cached decode result dr_. -/
structure Utf8CharIterator where
  ptr : Nat
  last : Nat
  dr : utf8_internal.DecodeResult
deriving DecidableEq

/-- Utf8CharIterator::Decode (unicode.h lines 192-196): refresh the cached
decode result unless the iterator is at the end. -/
def Utf8CharIterator.Decode (s : List Nat) (it : Utf8CharIterator) : Utf8CharIterator :=
  if it.ptr ≠ it.last then
    { it with dr := utf8_internal.Decode (window s it.ptr it.last) }
  else it

/-- The Utf8CharIterator constructor (unicode.h lines 153-156): position at
first and decode immediately.  The dr_ member is value-initialized before the
constructor body runs. -/
def Utf8CharIterator.make (s : List Nat) (first last : Nat) : Utf8CharIterator :=
  Utf8CharIterator.Decode s { ptr := first, last := last, dr := ⟨0, 0, false⟩ }

/-- Utf8CharIterator::operator++ (unicode.h lines 170-174): advance by the
cached decode's bytes_seen, then decode again. -/
def Utf8CharIterator.inc (s : List Nat) (it : Utf8CharIterator) : Utf8CharIterator :=
  Utf8CharIterator.Decode s { it with ptr := it.ptr + it.dr.bytes_seen }

/-- Utf8CharIterator::operator== (unicode.h lines 182-185): compares only the
current positions. -/
def Utf8CharIterator.iterEq (lhs rhs : Utf8CharIterator) : Bool := lhs.ptr == rhs.ptr

/-- Utf8CharIterator::operator!= (unicode.h lines 186-189). -/
def Utf8CharIterator.iterNe (lhs rhs : Utf8CharIterator) : Bool :=
  !(Utf8CharIterator.iterEq lhs rhs)

/-- Utf8AsCharsBase::begin (unicode.h line 256): the iterator at the start of
the buffer. -/
def beginIter (s : List Nat) : Utf8CharIterator := Utf8CharIterator.make s 0 s.length

/-- Utf8CharIterator::operator* in substring mode (unicode.h line 165): the
bytes_seen bytes at the current position, given the remaining window w. -/
def derefSpan (w : List Nat) (d : utf8_internal.DecodeResult) : List Nat :=
  w.take d.bytes_seen

/-- Utf8CharIterator::operator* in code point mode (unicode.h line 163). -/
def derefChar32 (_w : List Nat) (d : utf8_internal.DecodeResult) : Nat :=
  d.code_point

/-- Fuel-indexed loop yielding the dereferenced value g of each iterator
position of a forward traversal (construct at the start, dereference, advance
by bytes_seen).  Fuel only makes the recursion structural; the entry point
passes the byte length, which always suffices. -/
def viewYieldsFuel {α : Type} (g : List Nat → utf8_internal.DecodeResult → α) :
    Nat → List Nat → List α
  | _, [] => []
  | 0, _ :: _ => []
  | fuel + 1, b :: rest =>
    g (b :: rest) (utf8_internal.Decode (b :: rest)) ::
      viewYieldsFuel g fuel
        ((b :: rest).drop (utf8_internal.Decode (b :: rest)).bytes_seen)

/-- The sequence of values yielded by iterating a character view from begin()
to end(), dereferencing with g at every stop. -/
def viewYields {α : Type} (g : List Nat → utf8_internal.DecodeResult → α)
    (s : List Nat) : List α :=
  viewYieldsFuel g s.length s

/-- The character spans yielded by iterating Utf8AsChars (unicode.h line 345,
substring mode). -/
def utf8AsCharsList (s : List Nat) : List (List Nat) := viewYields derefSpan s

/-- The code points yielded by iterating Utf8AsChars32 (unicode.h line 328,
code point mode). -/
def utf8AsChars32List (s : List Nat) : List Nat := viewYields derefChar32 s

/-- The candidate loop of Utf8AsCharsBase::back (unicode.h lines 397-409): for
each size, if it fits in the buffer and the decode of the final size bytes
consumes exactly size bytes, yield that decode; otherwise try the next size.
Falling off the list is the ABSL_UNREACHABLE branch, modelled as none. -/
def backLoop {α : Type} (g : List Nat → utf8_internal.DecodeResult → α)
    (s : List Nat) : List Nat → Option α
  | [] => none
  | size :: sizes =>
    if size ≤ s.length then
      if (utf8_internal.Decode (s.drop (s.length - size))).bytes_seen = size then
        some (g (s.drop (s.length - size))
          (utf8_internal.Decode (s.drop (s.length - size))))
      else backLoop g s sizes
    else backLoop g s sizes

/-- Utf8AsCharsBase::back (unicode.h lines 382-411): an ASCII last byte is
returned directly; otherwise candidate sizes 3, 2, 4, 1 are tried.  The empty
buffer is a precondition violation, modelled as none. -/
def backImpl {α : Type} (g : List Nat → utf8_internal.DecodeResult → α)
    (ascii : Nat → α) (s : List Nat) : Option α :=
  match s.getLast? with
  | none => none
  | some b => if b ≤ 0x7F then some (ascii b) else backLoop g s [3, 2, 4, 1]

/-- Utf8AsCharsBase::back in code point mode (AsChar32 = true). -/
def back32 (s : List Nat) : Option Nat := backImpl derefChar32 (fun b => b) s

/-- Utf8AsCharsBase::back in substring mode (AsChar32 = false): the ASCII
branch returns the one-byte span at last - 1. -/
def backSpan (s : List Nat) : Option (List Nat) :=
  backImpl derefSpan (fun b => [b]) s

/-- Utf8AsCharsBase (unicode.h lines 216-308): a non-owning view of a byte
buffer, here carrying the viewed bytes sv_. -/
structure Utf8AsCharsBase where
  sv : List Nat
deriving DecidableEq

/-- Lexicographic strict comparison of byte sequences, as string_view
operator< performs. -/
def svLt : List Nat → List Nat → Bool
  | [], [] => false
  | [], _ :: _ => true
  | _ :: _, [] => false
  | a :: as, b :: bs => if a < b then true else if b < a then false else svLt as bs

/-- Lexicographic non-strict comparison of byte sequences, as string_view
operator<= performs. -/
def svLe : List Nat → List Nat → Bool
  | [], _ => true
  | _ :: _, [] => false
  | a :: as, b :: bs => if a < b then true else if b < a then false else svLe as bs

/-- Utf8AsCharsBase::operator== (unicode.h lines 285-287): delegates to
string_view equality of the underlying bytes. -/
def viewEq (lhs rhs : Utf8AsCharsBase) : Bool := lhs.sv == rhs.sv

/-- Utf8AsCharsBase::operator!= (unicode.h lines 288-290). -/
def viewNe (lhs rhs : Utf8AsCharsBase) : Bool := lhs.sv != rhs.sv

/-- Utf8AsCharsBase::operator< (unicode.h lines 291-293). -/
def viewLt (lhs rhs : Utf8AsCharsBase) : Bool := svLt lhs.sv rhs.sv

/-- Utf8AsCharsBase::operator<= (unicode.h lines 294-296). -/
def viewLe (lhs rhs : Utf8AsCharsBase) : Bool := svLe lhs.sv rhs.sv

/-- Utf8AsCharsBase::operator>= (unicode.h lines 297-299). -/
def viewGe (lhs rhs : Utf8AsCharsBase) : Bool := svLe rhs.sv lhs.sv

/-- Utf8AsCharsBase::operator> (unicode.h lines 300-302). -/
def viewGt (lhs rhs : Utf8AsCharsBase) : Bool := svLt rhs.sv lhs.sv

/-- A byte list that is the well-formed encoding of exactly one character: its
decode is well-formed and consumes the whole list. -/
def WfChar (c : List Nat) : Prop :=
  (utf8_internal.Decode c).well_formed = true ∧
    (utf8_internal.Decode c).bytes_seen = c.length

/-- A byte list that is a concatenation of well-formed character encodings. -/
inductive ValidChars : List Nat → Prop
  | nil : ValidChars []
  | cons (c s : List Nat) : WfChar c → ValidChars s → ValidChars (c ++ s)

namespace utf8_internal

theorem decode_nil : Decode [] = errorResult := rfl

theorem decode_ascii (b : Nat) (r : List Nat) (h : b < 0x80) :
    Decode (b :: r) = ⟨b, 1, true⟩ := by
  simp [Decode, h]

theorem decode_stray (b : Nat) (r : List Nat) (h1 : 0x80 ≤ b) (h2 : b < 0xC0) :
    Decode (b :: r) = errorResult := by
  simp only [Decode]
  rw [if_neg (by omega), if_pos h2]

theorem decode_invalid_lead (b : Nat) (r : List Nat) (h : 0xF8 ≤ b) :
    Decode (b :: r) = errorResult := by
  simp only [Decode]
  rw [if_neg (by omega), if_neg (by omega), if_neg (by omega), if_neg (by omega),
    if_neg (by omega)]

theorem decode_two (b c1 : Nat) (r : List Nat) (h1 : 0xC0 ≤ b) (h2 : b < 0xE0) :
    Decode (b :: c1 :: r) =
      if isContinuation c1 then
        if assemble2 b c1 < 0x80 then errorResult
        else ⟨assemble2 b c1, 2, true⟩
      else errorResult := by
  simp only [Decode]
  rw [if_neg (by omega), if_neg (by omega), if_pos h2]

theorem decode_two_short (b : Nat) (h1 : 0xC0 ≤ b) (h2 : b < 0xE0) :
    Decode [b] = errorResult := by
  simp only [Decode]
  rw [if_neg (by omega), if_neg (by omega), if_pos h2]

theorem decode_three (b c1 c2 : Nat) (r : List Nat) (h1 : 0xE0 ≤ b) (h2 : b < 0xF0) :
    Decode (b :: c1 :: c2 :: r) =
      if isContinuation c1 && isContinuation c2 then
        if assemble3 b c1 c2 < 0x800 then errorResult
        else if 0xD800 ≤ assemble3 b c1 c2 ∧ assemble3 b c1 c2 ≤ 0xDFFF then errorResult
        else ⟨assemble3 b c1 c2, 3, true⟩
      else errorResult := by
  simp only [Decode]
  rw [if_neg (by omega), if_neg (by omega), if_neg (by omega), if_pos h2]

theorem decode_three_short1 (b : Nat) (h1 : 0xE0 ≤ b) (h2 : b < 0xF0) :
    Decode [b] = errorResult := by
  simp only [Decode]
  rw [if_neg (by omega), if_neg (by omega), if_neg (by omega), if_pos h2]

theorem decode_three_short2 (b c1 : Nat) (h1 : 0xE0 ≤ b) (h2 : b < 0xF0) :
    Decode [b, c1] = errorResult := by
  simp only [Decode]
  rw [if_neg (by omega), if_neg (by omega), if_neg (by omega), if_pos h2]

theorem decode_four (b c1 c2 c3 : Nat) (r : List Nat) (h1 : 0xF0 ≤ b) (h2 : b < 0xF8) :
    Decode (b :: c1 :: c2 :: c3 :: r) =
      if isContinuation c1 && isContinuation c2 && isContinuation c3 then
        if assemble4 b c1 c2 c3 < 0x10000 then errorResult
        else if 0x10FFFF < assemble4 b c1 c2 c3 then errorResult
        else ⟨assemble4 b c1 c2 c3, 4, true⟩
      else errorResult := by
  simp only [Decode]
  rw [if_neg (by omega), if_neg (by omega), if_neg (by omega), if_neg (by omega), if_pos h2]

theorem decode_four_short1 (b : Nat) (h1 : 0xF0 ≤ b) (h2 : b < 0xF8) :
    Decode [b] = errorResult := by
  simp only [Decode]
  rw [if_neg (by omega), if_neg (by omega), if_neg (by omega), if_neg (by omega), if_pos h2]

theorem decode_four_short2 (b c1 : Nat) (h1 : 0xF0 ≤ b) (h2 : b < 0xF8) :
    Decode [b, c1] = errorResult := by
  simp only [Decode]
  rw [if_neg (by omega), if_neg (by omega), if_neg (by omega), if_neg (by omega), if_pos h2]

theorem decode_four_short3 (b c1 c2 : Nat) (h1 : 0xF0 ≤ b) (h2 : b < 0xF8) :
    Decode [b, c1, c2] = errorResult := by
  simp only [Decode]
  rw [if_neg (by omega), if_neg (by omega), if_neg (by omega), if_neg (by omega), if_pos h2]

theorem decode_cont_head (b : Nat) (r : List Nat) (h : isContinuation b = true) :
    Decode (b :: r) = errorResult := by
  simp only [isContinuation, Bool.and_eq_true, decide_eq_true_eq] at h
  exact decode_stray b r h.1 h.2

theorem decode_single_ge80 (b : Nat) (h : 0x80 ≤ b) : Decode [b] = errorResult := by
  rcases Nat.lt_or_ge b 0xC0 with h2 | h2
  · exact decode_stray b [] h h2
  rcases Nat.lt_or_ge b 0xE0 with h3 | h3
  · exact decode_two_short b h2 h3
  rcases Nat.lt_or_ge b 0xF0 with h4 | h4
  · exact decode_three_short1 b h3 h4
  rcases Nat.lt_or_ge b 0xF8 with h5 | h5
  · exact decode_four_short1 b h4 h5
  · exact decode_invalid_lead b [] h5

theorem decode_bytes_pos (w : List Nat) : 1 ≤ (Decode w).bytes_seen := by
  rcases w with _ | ⟨b, _ | ⟨c1, _ | ⟨c2, _ | ⟨c3, r⟩⟩⟩⟩
  · simp [decode_nil, errorResult]
  all_goals
    simp only [Decode]
    split_ifs <;> simp [errorResult]

theorem decode_bytes_le (w : List Nat) (hw : w ≠ []) :
    (Decode w).bytes_seen ≤ w.length := by
  rcases w with _ | ⟨b, _ | ⟨c1, _ | ⟨c2, _ | ⟨c3, r⟩⟩⟩⟩
  · exact absurd rfl hw
  all_goals
    simp only [Decode]
    split_ifs <;> simp [errorResult]

theorem decode_bytes_le4 (w : List Nat) : (Decode w).bytes_seen ≤ 4 := by
  rcases w with _ | ⟨b, _ | ⟨c1, _ | ⟨c2, _ | ⟨c3, r⟩⟩⟩⟩
  · simp [decode_nil, errorResult]
  all_goals
    simp only [Decode]
    split_ifs <;> simp [errorResult]

theorem decode_fail_eq (w : List Nat) (h : (Decode w).well_formed = false) :
    Decode w = errorResult := by
  rcases w with _ | ⟨b, _ | ⟨c1, _ | ⟨c2, _ | ⟨c3, r⟩⟩⟩⟩
  · rfl
  all_goals
    simp only [Decode] at h ⊢
    split_ifs at h ⊢ <;> simp_all [errorResult]

/-- Inversion for a well-formed decode: the window starts with one of the four
valid sequence shapes and the result is the assembled scalar value. -/
theorem decode_wf_cases (w : List Nat) (h : (Decode w).well_formed = true) :
    (∃ b r, w = b :: r ∧ b < 0x80 ∧ Decode w = ⟨b, 1, true⟩) ∨
    (∃ b c1 r, w = b :: c1 :: r ∧ 0xC0 ≤ b ∧ b < 0xE0 ∧ isContinuation c1 = true ∧
      0x80 ≤ assemble2 b c1 ∧ Decode w = ⟨assemble2 b c1, 2, true⟩) ∨
    (∃ b c1 c2 r, w = b :: c1 :: c2 :: r ∧ 0xE0 ≤ b ∧ b < 0xF0 ∧
      isContinuation c1 = true ∧ isContinuation c2 = true ∧
      0x800 ≤ assemble3 b c1 c2 ∧
      ¬(0xD800 ≤ assemble3 b c1 c2 ∧ assemble3 b c1 c2 ≤ 0xDFFF) ∧
      Decode w = ⟨assemble3 b c1 c2, 3, true⟩) ∨
    (∃ b c1 c2 c3 r, w = b :: c1 :: c2 :: c3 :: r ∧ 0xF0 ≤ b ∧ b < 0xF8 ∧
      isContinuation c1 = true ∧ isContinuation c2 = true ∧ isContinuation c3 = true ∧
      0x10000 ≤ assemble4 b c1 c2 c3 ∧ assemble4 b c1 c2 c3 ≤ 0x10FFFF ∧
      Decode w = ⟨assemble4 b c1 c2 c3, 4, true⟩) := by
  rcases w with _ | ⟨b, rest⟩
  · simp [decode_nil, errorResult] at h
  rcases Nat.lt_or_ge b 0x80 with h1 | h1
  · exact Or.inl ⟨b, rest, rfl, h1, decode_ascii b rest h1⟩
  rcases Nat.lt_or_ge b 0xC0 with h2 | h2
  · rw [decode_stray b rest h1 h2] at h
    simp [errorResult] at h
  rcases Nat.lt_or_ge b 0xE0 with h3 | h3
  · rcases rest with _ | ⟨c1, r⟩
    · rw [decode_two_short b h2 h3] at h
      simp [errorResult] at h
    rw [decode_two b c1 r h2 h3] at h
    by_cases hc : isContinuation c1 = true
    · rw [if_pos hc] at h
      by_cases hv : assemble2 b c1 < 0x80
      · rw [if_pos hv] at h
        simp [errorResult] at h
      · refine Or.inr (Or.inl ⟨b, c1, r, rfl, h2, h3, hc, by omega, ?_⟩)
        rw [decode_two b c1 r h2 h3, if_pos hc, if_neg hv]
    · rw [if_neg hc] at h
      simp [errorResult] at h
  rcases Nat.lt_or_ge b 0xF0 with h4 | h4
  · rcases rest with _ | ⟨c1, _ | ⟨c2, r⟩⟩
    · rw [decode_three_short1 b h3 h4] at h
      simp [errorResult] at h
    · rw [decode_three_short2 b c1 h3 h4] at h
      simp [errorResult] at h
    rw [decode_three b c1 c2 r h3 h4] at h
    by_cases hc : (isContinuation c1 && isContinuation c2) = true
    · rw [if_pos hc] at h
      by_cases hv : assemble3 b c1 c2 < 0x800
      · rw [if_pos hv] at h
        simp [errorResult] at h
      by_cases hs : 0xD800 ≤ assemble3 b c1 c2 ∧ assemble3 b c1 c2 ≤ 0xDFFF
      · rw [if_neg hv, if_pos hs] at h
        simp [errorResult] at h
      · rw [Bool.and_eq_true] at hc
        refine Or.inr (Or.inr (Or.inl ⟨b, c1, c2, r, rfl, h3, h4, hc.1, hc.2, by omega, hs, ?_⟩))
        rw [decode_three b c1 c2 r h3 h4, if_pos (by rw [Bool.and_eq_true]; exact hc),
          if_neg hv, if_neg hs]
    · rw [if_neg hc] at h
      simp [errorResult] at h
  rcases Nat.lt_or_ge b 0xF8 with h5 | h5
  · rcases rest with _ | ⟨c1, _ | ⟨c2, _ | ⟨c3, r⟩⟩⟩
    · rw [decode_four_short1 b h4 h5] at h
      simp [errorResult] at h
    · rw [decode_four_short2 b c1 h4 h5] at h
      simp [errorResult] at h
    · rw [decode_four_short3 b c1 c2 h4 h5] at h
      simp [errorResult] at h
    rw [decode_four b c1 c2 c3 r h4 h5] at h
    by_cases hc : (isContinuation c1 && isContinuation c2 && isContinuation c3) = true
    · rw [if_pos hc] at h
      by_cases hv : assemble4 b c1 c2 c3 < 0x10000
      · rw [if_pos hv] at h
        simp [errorResult] at h
      by_cases hx : 0x10FFFF < assemble4 b c1 c2 c3
      · rw [if_neg hv, if_pos hx] at h
        simp [errorResult] at h
      · rw [Bool.and_eq_true, Bool.and_eq_true] at hc
        refine Or.inr (Or.inr (Or.inr ⟨b, c1, c2, c3, r, rfl, h4, h5, hc.1.1, hc.1.2, hc.2,
          by omega, by omega, ?_⟩))
        rw [decode_four b c1 c2 c3 r h4 h5,
          if_pos (by rw [Bool.and_eq_true, Bool.and_eq_true]; exact hc), if_neg hv, if_neg hx]
    · rw [if_neg hc] at h
      simp [errorResult] at h
  · rw [decode_invalid_lead b rest h5] at h
    simp [errorResult] at h

end utf8_internal

open utf8_internal

/-- Inversion for a single well-formed character: it is exactly one of the four
valid sequence shapes, with no bytes left over. -/
theorem wfChar_cases (c : List Nat) (h : WfChar c) :
    (∃ b, c = [b] ∧ b < 0x80 ∧ Decode c = ⟨b, 1, true⟩) ∨
    (∃ b c1, c = [b, c1] ∧ 0xC0 ≤ b ∧ b < 0xE0 ∧ isContinuation c1 = true ∧
      0x80 ≤ assemble2 b c1 ∧ Decode c = ⟨assemble2 b c1, 2, true⟩) ∨
    (∃ b c1 c2, c = [b, c1, c2] ∧ 0xE0 ≤ b ∧ b < 0xF0 ∧
      isContinuation c1 = true ∧ isContinuation c2 = true ∧
      0x800 ≤ assemble3 b c1 c2 ∧
      ¬(0xD800 ≤ assemble3 b c1 c2 ∧ assemble3 b c1 c2 ≤ 0xDFFF) ∧
      Decode c = ⟨assemble3 b c1 c2, 3, true⟩) ∨
    (∃ b c1 c2 c3, c = [b, c1, c2, c3] ∧ 0xF0 ≤ b ∧ b < 0xF8 ∧
      isContinuation c1 = true ∧ isContinuation c2 = true ∧ isContinuation c3 = true ∧
      0x10000 ≤ assemble4 b c1 c2 c3 ∧ assemble4 b c1 c2 c3 ≤ 0x10FFFF ∧
      Decode c = ⟨assemble4 b c1 c2 c3, 4, true⟩) := by
  obtain ⟨hwf, hlen⟩ := h
  rcases decode_wf_cases c hwf with ⟨b, r, hc, h1, hd⟩ | ⟨b, c1, r, hc, h1, h2, h3, h4, hd⟩ |
    ⟨b, c1, c2, r, hc, h1, h2, h3, h4, h5, h6, hd⟩ |
    ⟨b, c1, c2, c3, r, hc, h1, h2, h3, h4, h5, h6, h7, hd⟩
  · subst hc
    rw [hd] at hlen
    simp only [List.length_cons] at hlen
    have hr : r = [] := by
      cases r
      · rfl
      · simp at hlen
    subst hr
    exact Or.inl ⟨b, rfl, h1, hd⟩
  · subst hc
    rw [hd] at hlen
    simp only [List.length_cons] at hlen
    have hr : r = [] := by
      cases r
      · rfl
      · simp at hlen
    subst hr
    exact Or.inr (Or.inl ⟨b, c1, rfl, h1, h2, h3, h4, hd⟩)
  · subst hc
    rw [hd] at hlen
    simp only [List.length_cons] at hlen
    have hr : r = [] := by
      cases r
      · rfl
      · simp at hlen
    subst hr
    exact Or.inr (Or.inr (Or.inl ⟨b, c1, c2, rfl, h1, h2, h3, h4, h5, h6, hd⟩))
  · subst hc
    rw [hd] at hlen
    simp only [List.length_cons] at hlen
    have hr : r = [] := by
      cases r
      · rfl
      · simp at hlen
    subst hr
    exact Or.inr (Or.inr (Or.inr ⟨b, c1, c2, c3, rfl, h1, h2, h3, h4, h5, h6, h7, hd⟩))

theorem WfChar.ne_nil (c : List Nat) (h : WfChar c) : c ≠ [] := by
  rcases wfChar_cases c h with ⟨b, hc, _⟩ | ⟨b, c1, hc, _⟩ | ⟨b, c1, c2, hc, _⟩ |
    ⟨b, c1, c2, c3, hc, _⟩ <;> subst hc <;> simp

/-- Decoding a window that starts with a well-formed character ignores the
bytes after that character. -/
theorem WfChar.decode_append (c : List Nat) (h : WfChar c) (t : List Nat) :
    Decode (c ++ t) = Decode c := by
  rcases wfChar_cases c h with ⟨b, hc, h1, hd⟩ | ⟨b, c1, hc, h1, h2, h3, h4, hd⟩ |
    ⟨b, c1, c2, hc, h1, h2, h3, h4, h5, h6, hd⟩ |
    ⟨b, c1, c2, c3, hc, h1, h2, h3, h4, h5, h6, h7, hd⟩ <;> subst hc
  · rw [hd, List.cons_append, List.nil_append, decode_ascii b t h1]
  · rw [hd]
    simp only [List.cons_append, List.nil_append]
    rw [decode_two b c1 t h1 h2, if_pos h3, if_neg (by omega)]
  · rw [hd]
    simp only [List.cons_append, List.nil_append]
    rw [decode_three b c1 c2 t h1 h2, if_pos (by rw [Bool.and_eq_true]; exact ⟨h3, h4⟩),
      if_neg (by omega), if_neg h6]
  · rw [hd]
    simp only [List.cons_append, List.nil_append]
    rw [decode_four b c1 c2 c3 t h1 h2,
      if_pos (by rw [Bool.and_eq_true, Bool.and_eq_true]; exact ⟨⟨h3, h4⟩, h5⟩),
      if_neg (by omega), if_neg (by omega)]

/-- Every byte of a well-formed character after the first is a continuation
byte; dropping into the middle of the character exposes one. -/
theorem WfChar.drop_cont (c : List Nat) (h : WfChar c) (j : Nat) (hj0 : 0 < j)
    (hjl : j < c.length) : ∃ x r, c.drop j = x :: r ∧ isContinuation x = true := by
  rcases wfChar_cases c h with ⟨b, hc, _⟩ | ⟨b, c1, hc, h1, h2, h3, _⟩ |
    ⟨b, c1, c2, hc, h1, h2, h3, h4, _⟩ | ⟨b, c1, c2, c3, hc, h1, h2, h3, h4, h5, _⟩ <;>
    subst hc <;> simp only [List.length_cons, List.length_nil] at hjl
  · omega
  · have : j = 1 := by omega
    subst this
    exact ⟨c1, [], rfl, h3⟩
  · rcases Nat.lt_or_ge j 2 with hj | hj
    · have : j = 1 := by omega
      subst this
      exact ⟨c1, [c2], rfl, h3⟩
    · have : j = 2 := by omega
      subst this
      exact ⟨c2, [], rfl, h4⟩
  · rcases Nat.lt_or_ge j 2 with hj | hj
    · have : j = 1 := by omega
      subst this
      exact ⟨c1, [c2, c3], rfl, h3⟩
    rcases Nat.lt_or_ge j 3 with hj2 | hj2
    · have : j = 2 := by omega
      subst this
      exact ⟨c2, [c3], rfl, h4⟩
    · have : j = 3 := by omega
      subst this
      exact ⟨c3, [], rfl, h5⟩

theorem drop_decode_length (s : List Nat) (hs : s ≠ []) :
    (s.drop (Decode s).bytes_seen).length < s.length := by
  have h1 := decode_bytes_pos s
  rw [List.length_drop]
  cases s
  · exact absurd rfl hs
  · simp only [List.length_cons]
    omega

namespace strings

theorem isValidUtf8Fuel_congr (f1 : Nat) :
    ∀ f2 s, s.length ≤ f1 → s.length ≤ f2 →
      isValidUtf8Fuel f1 s = isValidUtf8Fuel f2 s := by
  induction f1 with
  | zero =>
    intro f2 s h1 _
    have : s = [] := List.eq_nil_of_length_eq_zero (by omega)
    subst this
    cases f2 <;> rfl
  | succ f1 ih =>
    intro f2 s h1 h2
    rcases s with _ | ⟨b, rest⟩
    · cases f2 <;> rfl
    rcases f2 with _ | f2
    · simp at h2
    simp only [isValidUtf8Fuel]
    rw [ih f2 ((b :: rest).drop (utf8_internal.Decode (b :: rest)).bytes_seen)
      (by have := drop_decode_length (b :: rest) (by simp); simp only [List.length_cons] at *; omega)
      (by have := drop_decode_length (b :: rest) (by simp); simp only [List.length_cons] at *; omega)]

theorem isValidUtf8_cons (b : Nat) (rest : List Nat) :
    IsValidUtf8 (b :: rest) =
      ((utf8_internal.Decode (b :: rest)).well_formed &&
        IsValidUtf8 ((b :: rest).drop (utf8_internal.Decode (b :: rest)).bytes_seen)) := by
  show isValidUtf8Fuel (rest.length + 1) (b :: rest) = _
  simp only [isValidUtf8Fuel]
  rw [isValidUtf8Fuel_congr rest.length
    ((b :: rest).drop (utf8_internal.Decode (b :: rest)).bytes_seen).length
    ((b :: rest).drop (utf8_internal.Decode (b :: rest)).bytes_seen)
    (by have := drop_decode_length (b :: rest) (by simp); simp only [List.length_cons] at *; omega)
    (le_refl _)]
  rfl

end strings

/-- A string accepted by IsValidUtf8 is a concatenation of well-formed
character encodings. -/
theorem validChars_of_isValid (s : List Nat) (h : strings.IsValidUtf8 s = true) :
    ValidChars s := by
  suffices H : ∀ n s, s.length ≤ n → strings.IsValidUtf8 s = true → ValidChars s from
    H s.length s (le_refl _) h
  intro n
  induction n with
  | zero =>
    intro s hlen _
    have : s = [] := List.eq_nil_of_length_eq_zero (by omega)
    subst this
    exact ValidChars.nil
  | succ n ih =>
    intro s hlen hv
    rcases s with _ | ⟨b, rest⟩
    · exact ValidChars.nil
    rw [strings.isValidUtf8_cons, Bool.and_eq_true] at hv
    obtain ⟨hwf, hrest⟩ := hv
    have hvr : ValidChars ((b :: rest).drop (utf8_internal.Decode (b :: rest)).bytes_seen) := by
      apply ih
      · have := drop_decode_length (b :: rest) (by simp)
        simp only [List.length_cons] at *
        omega
      · exact hrest
    rcases decode_wf_cases (b :: rest) hwf with ⟨b0, r, hc, h1, hd⟩ |
      ⟨b0, c1, r, hc, h1, h2, h3, h4, hd⟩ | ⟨b0, c1, c2, r, hc, h1, h2, h3, h4, h5, h6, hd⟩ |
      ⟨b0, c1, c2, c3, r, hc, h1, h2, h3, h4, h5, h6, h7, hd⟩
    · rw [hc] at hd hvr ⊢
      rw [hd] at hvr
      have hwfc : WfChar [b0] := by
        constructor
        · rw [decode_ascii b0 [] h1]
        · rw [decode_ascii b0 [] h1]
          rfl
      exact ValidChars.cons [b0] r hwfc (by simpa using hvr)
    · rw [hc] at hd hvr ⊢
      rw [hd] at hvr
      have hwfc : WfChar [b0, c1] := by
        have hdc : utf8_internal.Decode [b0, c1] = ⟨utf8_internal.assemble2 b0 c1, 2, true⟩ := by
          rw [utf8_internal.decode_two b0 c1 [] h1 h2, if_pos h3, if_neg (by omega)]
        constructor
        · rw [hdc]
        · rw [hdc]
          rfl
      exact ValidChars.cons [b0, c1] r hwfc (by simpa using hvr)
    · rw [hc] at hd hvr ⊢
      rw [hd] at hvr
      have hwfc : WfChar [b0, c1, c2] := by
        have hdc : utf8_internal.Decode [b0, c1, c2] =
            ⟨utf8_internal.assemble3 b0 c1 c2, 3, true⟩ := by
          rw [utf8_internal.decode_three b0 c1 c2 [] h1 h2,
            if_pos (by rw [Bool.and_eq_true]; exact ⟨h3, h4⟩), if_neg (by omega), if_neg h6]
        constructor
        · rw [hdc]
        · rw [hdc]
          rfl
      exact ValidChars.cons [b0, c1, c2] r hwfc (by simpa using hvr)
    · rw [hc] at hd hvr ⊢
      rw [hd] at hvr
      have hwfc : WfChar [b0, c1, c2, c3] := by
        have hdc : utf8_internal.Decode [b0, c1, c2, c3] =
            ⟨utf8_internal.assemble4 b0 c1 c2 c3, 4, true⟩ := by
          rw [utf8_internal.decode_four b0 c1 c2 c3 [] h1 h2,
            if_pos (by rw [Bool.and_eq_true, Bool.and_eq_true]; exact ⟨⟨h3, h4⟩, h5⟩),
            if_neg (by omega), if_neg (by omega)]
        constructor
        · rw [hdc]
        · rw [hdc]
          rfl
      exact ValidChars.cons [b0, c1, c2, c3] r hwfc (by simpa using hvr)

theorem viewYieldsFuel_congr {α : Type} (g : List Nat → utf8_internal.DecodeResult → α)
    (f1 : Nat) : ∀ f2 s, s.length ≤ f1 → s.length ≤ f2 →
      viewYieldsFuel g f1 s = viewYieldsFuel g f2 s := by
  induction f1 with
  | zero =>
    intro f2 s h1 _
    have : s = [] := List.eq_nil_of_length_eq_zero (by omega)
    subst this
    cases f2 <;> rfl
  | succ f1 ih =>
    intro f2 s h1 h2
    rcases s with _ | ⟨b, rest⟩
    · cases f2 <;> rfl
    rcases f2 with _ | f2
    · simp at h2
    simp only [viewYieldsFuel]
    rw [ih f2 ((b :: rest).drop (utf8_internal.Decode (b :: rest)).bytes_seen)
      (by have := drop_decode_length (b :: rest) (by simp); simp only [List.length_cons] at *; omega)
      (by have := drop_decode_length (b :: rest) (by simp); simp only [List.length_cons] at *; omega)]

theorem viewYields_cons {α : Type} (g : List Nat → utf8_internal.DecodeResult → α)
    (b : Nat) (rest : List Nat) :
    viewYields g (b :: rest) =
      g (b :: rest) (utf8_internal.Decode (b :: rest)) ::
        viewYields g ((b :: rest).drop (utf8_internal.Decode (b :: rest)).bytes_seen) := by
  show viewYieldsFuel g (rest.length + 1) (b :: rest) = _
  simp only [viewYieldsFuel]
  rw [viewYieldsFuel_congr g rest.length
    ((b :: rest).drop (utf8_internal.Decode (b :: rest)).bytes_seen).length
    ((b :: rest).drop (utf8_internal.Decode (b :: rest)).bytes_seen)
    (by have := drop_decode_length (b :: rest) (by simp); simp only [List.length_cons] at *; omega)
    (le_refl _)]
  rfl

/-- One traversal step over a leading well-formed character yields its
dereferenced value and continues with the remaining bytes. -/
theorem viewYields_wf_cons {α : Type} (g : List Nat → utf8_internal.DecodeResult → α)
    (c t : List Nat) (hc : WfChar c) :
    viewYields g (c ++ t) = g (c ++ t) (Decode c) :: viewYields g t := by
  rcases c with _ | ⟨b, cr⟩
  · exact absurd rfl (WfChar.ne_nil [] hc)
  rw [List.cons_append, viewYields_cons]
  have hd : Decode (b :: (cr ++ t)) = Decode (b :: cr) := WfChar.decode_append (b :: cr) hc t
  have hdrop : List.drop (b :: cr).length (b :: (cr ++ t)) = t := List.drop_left (b :: cr) t
  rw [hd, hc.2, hdrop]

/-- The substring-mode traversal cuts the buffer into non-empty spans whose
concatenation restores the buffer exactly. -/
theorem utf8AsCharsList_flatten (s : List Nat) :
    (utf8AsCharsList s).flatten = s ∧ ∀ c ∈ utf8AsCharsList s, c ≠ [] := by
  suffices H : ∀ n s, s.length ≤ n →
      (utf8AsCharsList s).flatten = s ∧ ∀ c ∈ utf8AsCharsList s, c ≠ [] from
    H s.length s (le_refl _)
  intro n
  induction n with
  | zero =>
    intro s hlen
    have : s = [] := List.eq_nil_of_length_eq_zero (by omega)
    subst this
    exact ⟨rfl, by intro c hcm; simp [utf8AsCharsList, viewYields, viewYieldsFuel] at hcm⟩
  | succ n ih =>
    intro s hlen
    rcases s with _ | ⟨b, rest⟩
    · exact ⟨rfl, by intro c hcm; simp [utf8AsCharsList, viewYields, viewYieldsFuel] at hcm⟩
    have hcons : utf8AsCharsList (b :: rest) =
        derefSpan (b :: rest) (utf8_internal.Decode (b :: rest)) ::
          utf8AsCharsList ((b :: rest).drop (utf8_internal.Decode (b :: rest)).bytes_seen) :=
      viewYields_cons derefSpan b rest
    have hdl : ((b :: rest).drop (utf8_internal.Decode (b :: rest)).bytes_seen).length ≤ n := by
      have := drop_decode_length (b :: rest) (by simp)
      simp only [List.length_cons] at *
      omega
    obtain ⟨ihj, ihne⟩ := ih ((b :: rest).drop (utf8_internal.Decode (b :: rest)).bytes_seen) hdl
    constructor
    · rw [hcons]
      simp only [List.flatten_cons, ihj, derefSpan]
      exact List.take_append_drop _ _
    · intro c hcm
      rw [hcons] at hcm
      rcases List.mem_cons.mp hcm with hch | hct
      · subst hch
        have hpos := utf8_internal.decode_bytes_pos (b :: rest)
        rcases Nat.exists_eq_add_of_le hpos with ⟨k, hk⟩
        simp only [derefSpan, hk.symm]
        rw [show (utf8_internal.Decode (b :: rest)).bytes_seen = k + 1 by omega]
        simp
      · exact ihne c hct

namespace strings

theorem oneCharLen_pos (b : Nat) : 1 ≤ utf8_internal.OneCharLen b := by
  simp only [utf8_internal.OneCharLen]
  split_ifs <;> omega

theorem drop_oneCharLen_length (b : Nat) (rest : List Nat) :
    ((b :: rest).drop (utf8_internal.OneCharLen b)).length < (b :: rest).length := by
  have := oneCharLen_pos b
  rw [List.length_drop]
  simp only [List.length_cons]
  omega

theorem charsLenFuel_congr (f1 : Nat) :
    ∀ f2 s, s.length ≤ f1 → s.length ≤ f2 → charsLenFuel f1 s = charsLenFuel f2 s := by
  induction f1 with
  | zero =>
    intro f2 s h1 _
    have : s = [] := List.eq_nil_of_length_eq_zero (by omega)
    subst this
    cases f2 <;> rfl
  | succ f1 ih =>
    intro f2 s h1 h2
    rcases s with _ | ⟨b, rest⟩
    · cases f2 <;> rfl
    rcases f2 with _ | f2
    · simp at h2
    simp only [charsLenFuel]
    rw [ih f2 ((b :: rest).drop (utf8_internal.OneCharLen b))
      (by have := drop_oneCharLen_length b rest; simp only [List.length_cons] at *; omega)
      (by have := drop_oneCharLen_length b rest; simp only [List.length_cons] at *; omega)]

theorem charsLen_cons (b : Nat) (rest : List Nat) :
    CharsLen (b :: rest) =
      1 + CharsLen ((b :: rest).drop (utf8_internal.OneCharLen b)) := by
  show charsLenFuel (rest.length + 1) (b :: rest) = _
  simp only [charsLenFuel]
  rw [charsLenFuel_congr rest.length ((b :: rest).drop (utf8_internal.OneCharLen b)).length
    ((b :: rest).drop (utf8_internal.OneCharLen b))
    (by have := drop_oneCharLen_length b rest; simp only [List.length_cons] at *; omega)
    (le_refl _)]
  rfl

theorem atLeastCharsLen_min (n : Nat) :
    ∀ s, AtLeastCharsLen s n = min (CharsLen s) n := by
  induction n with
  | zero =>
    intro s
    rcases s with _ | ⟨b, rest⟩ <;> simp [AtLeastCharsLen, atLeastCharsLenRec]
  | succ n ih =>
    intro s
    rcases s with _ | ⟨b, rest⟩
    · simp [AtLeastCharsLen, atLeastCharsLenRec, CharsLen, charsLenFuel]
    show atLeastCharsLenRec (n + 1) (b :: rest) = _
    simp only [atLeastCharsLenRec]
    rw [show atLeastCharsLenRec n ((b :: rest).drop (utf8_internal.OneCharLen b)) =
      AtLeastCharsLen ((b :: rest).drop (utf8_internal.OneCharLen b)) n from rfl]
    rw [ih ((b :: rest).drop (utf8_internal.OneCharLen b)), charsLen_cons b rest]
    omega

end strings

theorem svLt_iff_lex : ∀ a b : List Nat, svLt a b = true ↔ List.Lex (· < ·) a b := by
  intro a
  induction a with
  | nil =>
    intro b
    rcases b with _ | ⟨x, bs⟩
    · simp only [svLt]
      exact ⟨fun h => by simp at h, fun h => absurd h (List.Lex.not_nil_right _ _)⟩
    · simp only [svLt]
      exact ⟨fun _ => List.Lex.nil, fun _ => by simp⟩
  | cons a as iha =>
    intro b
    rcases b with _ | ⟨x, bs⟩
    · simp only [svLt]
      exact ⟨fun h => by simp at h, fun h => absurd h (List.Lex.not_nil_right _ _)⟩
    simp only [svLt]
    by_cases hab : a < x
    · rw [if_pos hab]
      exact ⟨fun _ => List.Lex.rel hab, fun _ => rfl⟩
    rw [if_neg hab]
    by_cases hba : x < a
    · rw [if_pos hba]
      constructor
      · intro h
        simp at h
      · intro hlex
        cases hlex with
        | cons h => exact absurd hba (lt_irrefl _)
        | rel h => exact absurd h hab
    · have hax : a = x := by omega
      subst hax
      rw [if_neg hba]
      constructor
      · intro h
        exact List.Lex.cons ((iha bs).mp h)
      · intro hlex
        cases hlex with
        | cons h => exact (iha bs).mpr h
        | rel h => exact absurd h hab

theorem svLe_eq : ∀ a b : List Nat, svLe a b = (svLt a b || a == b) := by
  intro a
  induction a with
  | nil =>
    intro b
    rcases b with _ | ⟨x, bs⟩ <;> rfl
  | cons a as iha =>
    intro b
    rcases b with _ | ⟨x, bs⟩
    · rfl
    simp only [svLe, svLt]
    by_cases hab : a < x
    · rw [if_pos hab, if_pos hab]
      rfl
    rw [if_neg hab, if_neg hab]
    by_cases hba : x < a
    · rw [if_pos hba, if_pos hba]
      have : (a == x) = false := by
        rw [beq_eq_false_iff_ne]
        omega
      simp [List.cons_beq_cons, this]
    · have hax : a = x := by omega
      subst hax
      rw [if_neg hba, if_neg hba]
      rw [iha bs]
      simp [List.cons_beq_cons]

theorem iterDecode_ptr (s : List Nat) (it : Utf8CharIterator) :
    (Utf8CharIterator.Decode s it).ptr = it.ptr := by
  rw [Utf8CharIterator.Decode]
  split <;> rfl

theorem iterDecode_last (s : List Nat) (it : Utf8CharIterator) :
    (Utf8CharIterator.Decode s it).last = it.last := by
  rw [Utf8CharIterator.Decode]
  split <;> rfl

theorem iterDecode_dr_of_ne (s : List Nat) (it : Utf8CharIterator) (h : it.ptr ≠ it.last) :
    (Utf8CharIterator.Decode s it).dr = utf8_internal.Decode (window s it.ptr it.last) := by
  rw [Utf8CharIterator.Decode, if_pos h]

theorem window_to_end (s : List Nat) (a : Nat) : window s a s.length = s.drop a := by
  rw [window, List.take_length]

/-- The iterator invariant: the cursor never lies beyond the end, and away
from the end the cached decode makes positive progress that stays in
bounds. -/
def IterInv (s : List Nat) (it : Utf8CharIterator) : Prop :=
  it.last = s.length ∧ it.ptr ≤ s.length ∧
    (it.ptr < s.length → 1 ≤ it.dr.bytes_seen ∧ it.ptr + it.dr.bytes_seen ≤ s.length)

theorem iterInv_decode (s : List Nat) (it : Utf8CharIterator) (h1 : it.last = s.length)
    (h2 : it.ptr ≤ s.length) : IterInv s (Utf8CharIterator.Decode s it) := by
  refine ⟨by rw [iterDecode_last, h1], by rw [iterDecode_ptr]; exact h2, ?_⟩
  rw [iterDecode_ptr]
  intro hlt
  have hne : it.ptr ≠ it.last := by omega
  rw [iterDecode_dr_of_ne s it hne, h1, window_to_end]
  have hdne : s.drop it.ptr ≠ [] := by
    intro hnil
    have := congrArg List.length hnil
    rw [List.length_drop] at this
    simp at this
    omega
  have hle := utf8_internal.decode_bytes_le (s.drop it.ptr) hdne
  rw [List.length_drop] at hle
  exact ⟨utf8_internal.decode_bytes_pos _, by omega⟩

theorem iterInv_inc (s : List Nat) (it : Utf8CharIterator) (hinv : IterInv s it)
    (hlt : it.ptr < s.length) : IterInv s (Utf8CharIterator.inc s it) := by
  obtain ⟨h1, h2, h3⟩ := hinv
  obtain ⟨hb1, hb2⟩ := h3 hlt
  exact iterInv_decode s _ h1 hb2

theorem inc_ptr (s : List Nat) (it : Utf8CharIterator) :
    (Utf8CharIterator.inc s it).ptr = it.ptr + it.dr.bytes_seen := by
  rw [Utf8CharIterator.inc, iterDecode_ptr]

/-- From any iterator state satisfying the invariant, finitely many increments
reach exactly the end position without ever overrunning it. -/
theorem iter_reaches (s : List Nat) : ∀ m (it : Utf8CharIterator), IterInv s it →
    s.length - it.ptr ≤ m →
    ∃ n, ((Utf8CharIterator.inc s)^[n] it).ptr = s.length ∧
      ∀ k, k ≤ n → ((Utf8CharIterator.inc s)^[k] it).ptr ≤ s.length := by
  intro m
  induction m with
  | zero =>
    intro it hinv hm
    refine ⟨0, by have := hinv.2.1; simp only [Function.iterate_zero, id_eq]; omega, ?_⟩
    intro k hk
    have : k = 0 := by omega
    subst this
    simp only [Function.iterate_zero, id_eq]
    exact hinv.2.1
  | succ m ih =>
    intro it hinv hm
    rcases Nat.lt_or_ge it.ptr s.length with hlt | hge
    · have hinv2 := iterInv_inc s it hinv hlt
      obtain ⟨hb1, _⟩ := hinv.2.2 hlt
      have hm2 : s.length - (Utf8CharIterator.inc s it).ptr ≤ m := by
        rw [inc_ptr]
        omega
      obtain ⟨n, hn, hbound⟩ := ih (Utf8CharIterator.inc s it) hinv2 hm2
      refine ⟨n + 1, ?_, ?_⟩
      · rw [Function.iterate_succ_apply]
        exact hn
      · intro k hk
        rcases k with _ | k
        · simp only [Function.iterate_zero, id_eq]
          exact hinv.2.1
        · rw [Function.iterate_succ_apply]
          exact hbound k (by omega)
    · have heq : it.ptr = s.length := by
        have := hinv.2.1
        omega
      refine ⟨0, by simpa using heq, ?_⟩
      intro k hk
      have : k = 0 := by omega
      subst this
      simpa using hinv.2.1

theorem getLast?_cons_ne {α : Type} (a : α) (l : List α) (h : l ≠ []) :
    (a :: l).getLast? = l.getLast? := by
  rcases l with _ | ⟨x, t⟩
  · exact absurd rfl h
  · rfl

theorem drop_length_sub_one : ∀ s : List Nat, s ≠ [] →
    ∃ b, s.getLast? = some b ∧ s.drop (s.length - 1) = [b] := by
  intro s
  induction s with
  | nil => intro h; exact absurd rfl h
  | cons x r ih =>
    intro _
    rcases r with _ | ⟨y, t⟩
    · exact ⟨x, rfl, rfl⟩
    obtain ⟨b, hb1, hb2⟩ := ih (by simp)
    refine ⟨b, by rw [getLast?_cons_ne x (y :: t) (by simp)]; exact hb1, ?_⟩
    have hlen : (x :: y :: t).length - 1 = ((y :: t).length - 1) + 1 := by
      simp only [List.length_cons]
      omega
    rw [hlen, List.drop_succ_cons]
    exact hb2

/-- Decoding any window that starts strictly inside a valid prefix p cannot
consume bytes beyond p: at a character boundary the decode stops at that
character's end, and in mid-character it fails after one byte. -/
theorem validChars_suffix_bytes (p : List Nat) (hp : ValidChars p) :
    ∀ j, j < p.length → ∀ t, (Decode (p.drop j ++ t)).bytes_seen ≤ p.length - j := by
  induction hp with
  | nil =>
    intro j hj
    simp at hj
  | cons c s hc hs ih =>
    intro j hj t
    rcases Nat.lt_or_ge j c.length with hjc | hjc
    · rcases Nat.eq_zero_or_pos j with hj0 | hj0
      · subst hj0
        rw [List.drop_zero, List.append_assoc]
        rw [WfChar.decode_append c hc (s ++ t), hc.2]
        simp only [List.length_append]
        omega
      · have hdj : (c ++ s).drop j = c.drop j ++ s := by
          rw [List.drop_append_eq_append_drop, Nat.sub_eq_zero_of_le (by omega), List.drop_zero]
        obtain ⟨x, r, hxr, hcont⟩ := WfChar.drop_cont c hc j hj0 hjc
        rw [hdj, hxr, List.cons_append, List.cons_append,
          utf8_internal.decode_cont_head x _ hcont]
        simp only [utf8_internal.errorResult]
        simp only [List.length_append] at hj ⊢
        omega
    · have hdj : (c ++ s).drop j = s.drop (j - c.length) := by
        rw [List.drop_append_eq_append_drop, List.drop_eq_nil_of_le hjc, List.nil_append]
      rw [hdj]
      have hjs : j - c.length < s.length := by
        simp only [List.length_append] at hj
        omega
      have := ih (j - c.length) hjs t
      simp only [List.length_append]
      omega

theorem utf8AsCharsList_wf_cons (c t : List Nat) (hc : WfChar c) :
    utf8AsCharsList (c ++ t) = derefSpan (c ++ t) (Decode c) :: utf8AsCharsList t :=
  viewYields_wf_cons derefSpan c t hc

theorem utf8AsChars32List_wf_cons (c t : List Nat) (hc : WfChar c) :
    utf8AsChars32List (c ++ t) = derefChar32 (c ++ t) (Decode c) :: utf8AsChars32List t :=
  viewYields_wf_cons derefChar32 c t hc

/-- A non-empty valid string splits as a valid prefix followed by its last
character, which is also the last element yielded by forward iteration in
both representation modes. -/
theorem validChars_last_decomp (s : List Nat) (hs : ValidChars s) : s ≠ [] →
    ∃ p c, s = p ++ c ∧ ValidChars p ∧ WfChar c ∧
      (utf8AsCharsList s).getLast? = some c ∧
      (utf8AsChars32List s).getLast? = some (Decode c).code_point := by
  induction hs with
  | nil => intro h; exact absurd rfl h
  | cons c0 s0 hc0 hs0 ih =>
    intro _
    rcases s0 with _ | ⟨b0, r0⟩
    · refine ⟨[], c0, by simp, ValidChars.nil, hc0, ?_, ?_⟩
      · have h1 : utf8AsCharsList (c0 ++ []) =
            derefSpan (c0 ++ []) (Decode c0) :: utf8AsCharsList [] :=
          viewYields_wf_cons derefSpan c0 [] hc0
        rw [h1]
        simp only [utf8AsCharsList, viewYields, List.length_nil, viewYieldsFuel]
        simp only [derefSpan, hc0.2, List.append_nil, List.take_length, List.getLast?_singleton]
      · have h1 : utf8AsChars32List (c0 ++ []) =
            derefChar32 (c0 ++ []) (Decode c0) :: utf8AsChars32List [] :=
          viewYields_wf_cons derefChar32 c0 [] hc0
        rw [h1]
        simp only [utf8AsChars32List, viewYields, List.length_nil, viewYieldsFuel]
        simp only [derefChar32, List.getLast?_singleton]
    obtain ⟨p1, c, hdec, hp1, hc, hsp, hcp⟩ := ih (by simp)
    refine ⟨c0 ++ p1, c, by rw [List.append_assoc, hdec.symm], ValidChars.cons c0 p1 hc0 hp1,
      hc, ?_, ?_⟩
    · rw [utf8AsCharsList_wf_cons c0 (b0 :: r0) hc0]
      rw [getLast?_cons_ne _ _ ?hne]
      · exact hsp
      case hne =>
        have h2 : utf8AsCharsList (b0 :: r0) =
            derefSpan (b0 :: r0) (Decode (b0 :: r0)) ::
              utf8AsCharsList ((b0 :: r0).drop (Decode (b0 :: r0)).bytes_seen) :=
          viewYields_cons derefSpan b0 r0
        rw [h2]
        simp
    · rw [utf8AsChars32List_wf_cons c0 (b0 :: r0) hc0]
      rw [getLast?_cons_ne _ _ ?hne2]
      · exact hcp
      case hne2 =>
        have h2 : utf8AsChars32List (b0 :: r0) =
            derefChar32 (b0 :: r0) (Decode (b0 :: r0)) ::
              utf8AsChars32List ((b0 :: r0).drop (Decode (b0 :: r0)).bytes_seen) :=
          viewYields_cons derefChar32 b0 r0
        rw [h2]
        simp

theorem backLoop_cons_skip {α : Type} (g : List Nat → utf8_internal.DecodeResult → α)
    (s : List Nat) (size : Nat) (sizes : List Nat) (h : ¬ size ≤ s.length) :
    backLoop g s (size :: sizes) = backLoop g s sizes := by
  simp only [backLoop]
  rw [if_neg h]

theorem backLoop_cons_reject {α : Type} (g : List Nat → utf8_internal.DecodeResult → α)
    (s : List Nat) (size : Nat) (sizes : List Nat) (h1 : size ≤ s.length)
    (h2 : (Decode (s.drop (s.length - size))).bytes_seen ≠ size) :
    backLoop g s (size :: sizes) = backLoop g s sizes := by
  simp only [backLoop]
  rw [if_pos h1, if_neg h2]

theorem backLoop_cons_accept {α : Type} (g : List Nat → utf8_internal.DecodeResult → α)
    (s : List Nat) (size : Nat) (sizes : List Nat) (h1 : size ≤ s.length)
    (h2 : (Decode (s.drop (s.length - size))).bytes_seen = size) :
    backLoop g s (size :: sizes) =
      some (g (s.drop (s.length - size)) (Decode (s.drop (s.length - size)))) := by
  simp only [backLoop]
  rw [if_pos h1, if_pos h2]

/-- The candidate loop of back() locates exactly the last character of a valid
buffer whenever that character is at least two bytes long. -/
theorem backLoop_wf {α : Type} (g : List Nat → utf8_internal.DecodeResult → α)
    (p c : List Nat) (hp : ValidChars p) (hc : WfChar c) (hL : 2 ≤ c.length) :
    backLoop g (p ++ c) [3, 2, 4, 1] = some (g c (Decode c)) := by
  have hwink : ∀ k, k ≤ c.length →
      (p ++ c).drop ((p ++ c).length - k) = c.drop (c.length - k) := by
    intro k hk
    rw [List.drop_append_eq_append_drop,
      List.drop_eq_nil_of_le (by rw [List.length_append]; omega), List.nil_append]
    congr 1
    rw [List.length_append]
    omega
  have hwinL : (p ++ c).drop ((p ++ c).length - c.length) = c := by
    rw [hwink c.length (le_refl _), Nat.sub_self, List.drop_zero]
  have hreject_big : ∀ k, c.length < k → k ≤ (p ++ c).length →
      (Decode ((p ++ c).drop ((p ++ c).length - k))).bytes_seen ≠ k := by
    intro k hkgt hkle
    have hplen : k - c.length ≤ p.length := by
      rw [List.length_append] at hkle
      omega
    have hj : (p ++ c).length - k = p.length - (k - c.length) := by
      rw [List.length_append]
      omega
    have hjlt : p.length - (k - c.length) < p.length := by omega
    have hdropj : (p ++ c).drop (p.length - (k - c.length)) =
        p.drop (p.length - (k - c.length)) ++ c := by
      have hz : p.length - (k - c.length) - p.length = 0 := by omega
      rw [List.drop_append_eq_append_drop, hz, List.drop_zero]
    have hbytes := validChars_suffix_bytes p hp (p.length - (k - c.length)) hjlt c
    rw [hj, hdropj]
    omega
  rcases wfChar_cases c hc with ⟨bb, hceq, hbb, hdec⟩ | ⟨bb, cc1, hceq, hb1, hb2, hk1, hv, hdec⟩ |
    ⟨bb, cc1, cc2, hceq, hb1, hb2, hk1, hk2, hv1, hv2, hdec⟩ |
    ⟨bb, cc1, cc2, cc3, hceq, hb1, hb2, hk1, hk2, hk3, hv1, hv2, hdec⟩
  · rw [hceq] at hL
    simp at hL
  · -- two-byte character: candidate 3 is skipped or rejected, 2 accepted
    have hclen : c.length = 2 := by rw [hceq]; rfl
    have h2le : 2 ≤ (p ++ c).length := by
      rw [List.length_append]
      omega
    have haccept2 : (Decode ((p ++ c).drop ((p ++ c).length - 2))).bytes_seen = 2 := by
      rw [show ((2 : Nat) = c.length) from hclen.symm, hwinL, hc.2, hclen]
    have hstep2 : backLoop g (p ++ c) [2, 4, 1] = some (g c (Decode c)) := by
      rw [backLoop_cons_accept g (p ++ c) 2 [4, 1] h2le haccept2]
      rw [show ((2 : Nat) = c.length) from hclen.symm, hwinL]
    rcases Nat.lt_or_ge ((p ++ c).length) 3 with h3 | h3
    · rw [backLoop_cons_skip g (p ++ c) 3 [2, 4, 1] (by omega)]
      exact hstep2
    · rw [backLoop_cons_reject g (p ++ c) 3 [2, 4, 1] h3 (hreject_big 3 (by omega) h3)]
      exact hstep2
  · -- three-byte character: candidate 3 accepted immediately
    have hclen : c.length = 3 := by rw [hceq]; rfl
    have h3le : 3 ≤ (p ++ c).length := by
      rw [List.length_append]
      omega
    have haccept3 : (Decode ((p ++ c).drop ((p ++ c).length - 3))).bytes_seen = 3 := by
      rw [show ((3 : Nat) = c.length) from hclen.symm, hwinL, hc.2, hclen]
    rw [backLoop_cons_accept g (p ++ c) 3 [2, 4, 1] h3le haccept3]
    rw [show ((3 : Nat) = c.length) from hclen.symm, hwinL]
  · -- four-byte character: candidates 3 and 2 start mid-character, 4 accepted
    have hclen : c.length = 4 := by rw [hceq]; rfl
    have h4le : 4 ≤ (p ++ c).length := by
      rw [List.length_append]
      omega
    have hreject3 : (Decode ((p ++ c).drop ((p ++ c).length - 3))).bytes_seen ≠ 3 := by
      rw [hwink 3 (by omega)]
      rw [hceq, show ([bb, cc1, cc2, cc3] : List Nat).length - 3 = 1 from rfl]
      rw [show ([bb, cc1, cc2, cc3] : List Nat).drop 1 = [cc1, cc2, cc3] from rfl]
      rw [utf8_internal.decode_cont_head cc1 [cc2, cc3] hk1]
      simp [utf8_internal.errorResult]
    have hreject2 : (Decode ((p ++ c).drop ((p ++ c).length - 2))).bytes_seen ≠ 2 := by
      rw [hwink 2 (by omega)]
      rw [hceq, show ([bb, cc1, cc2, cc3] : List Nat).length - 2 = 2 from rfl]
      rw [show ([bb, cc1, cc2, cc3] : List Nat).drop 2 = [cc2, cc3] from rfl]
      rw [utf8_internal.decode_cont_head cc2 [cc3] hk2]
      simp [utf8_internal.errorResult]
    have haccept4 : (Decode ((p ++ c).drop ((p ++ c).length - 4))).bytes_seen = 4 := by
      rw [show ((4 : Nat) = c.length) from hclen.symm, hwinL, hc.2, hclen]
    rw [backLoop_cons_reject g (p ++ c) 3 [2, 4, 1] (by omega) hreject3]
    rw [backLoop_cons_reject g (p ++ c) 2 [4, 1] (by omega) hreject2]
    rw [backLoop_cons_accept g (p ++ c) 4 [1] h4le haccept4]
    rw [show ((4 : Nat) = c.length) from hclen.symm, hwinL]

/-- back() returns exactly the last character of a valid buffer, in both
representation modes. -/
theorem back_correct (p c : List Nat) (hp : ValidChars p) (hc : WfChar c) :
    back32 (p ++ c) = some (Decode c).code_point ∧ backSpan (p ++ c) = some c := by
  rcases wfChar_cases c hc with ⟨bb, hceq, hbb, hdec⟩ | ⟨bb, cc1, hceq, hb1, hb2, hk1, hv, hdec⟩ |
    ⟨bb, cc1, cc2, hceq, hb1, hb2, hk1, hk2, hv1, hv2, hdec⟩ |
    ⟨bb, cc1, cc2, cc3, hceq, hb1, hb2, hk1, hk2, hk3, hv1, hv2, hdec⟩
  · -- ASCII last byte
    subst hceq
    have hlast : (p ++ [bb]).getLast? = some bb := List.getLast?_concat p
    constructor
    · simp only [back32, backImpl, hlast]
      rw [if_pos (by omega)]
      rw [hdec]
    · simp only [backSpan, backImpl, hlast]
      rw [if_pos (by omega)]
  all_goals subst hceq
  · -- two-byte last character
    have hcont : (0x80 : Nat) ≤ cc1 ∧ cc1 < 0xC0 := by
      simpa [utf8_internal.isContinuation, Bool.and_eq_true, decide_eq_true_eq] using hk1
    have hlast : (p ++ [bb, cc1]).getLast? = some cc1 := by
      rw [List.getLast?_append]
      rfl
    have hwf : WfChar [bb, cc1] := hc
    constructor
    · simp only [back32, backImpl, hlast]
      rw [if_neg (by omega)]
      rw [backLoop_wf derefChar32 p [bb, cc1] hp hwf (by simp)]
      rfl
    · simp only [backSpan, backImpl, hlast]
      rw [if_neg (by omega)]
      rw [backLoop_wf derefSpan p [bb, cc1] hp hwf (by simp)]
      simp only [derefSpan, hwf.2]
      rw [List.take_length]
  · -- three-byte last character
    have hcont : (0x80 : Nat) ≤ cc2 ∧ cc2 < 0xC0 := by
      simpa [utf8_internal.isContinuation, Bool.and_eq_true, decide_eq_true_eq] using hk2
    have hlast : (p ++ [bb, cc1, cc2]).getLast? = some cc2 := by
      rw [List.getLast?_append]
      rfl
    have hwf : WfChar [bb, cc1, cc2] := hc
    constructor
    · simp only [back32, backImpl, hlast]
      rw [if_neg (by omega)]
      rw [backLoop_wf derefChar32 p [bb, cc1, cc2] hp hwf (by simp)]
      rfl
    · simp only [backSpan, backImpl, hlast]
      rw [if_neg (by omega)]
      rw [backLoop_wf derefSpan p [bb, cc1, cc2] hp hwf (by simp)]
      simp only [derefSpan, hwf.2]
      rw [List.take_length]
  · -- four-byte last character
    have hcont : (0x80 : Nat) ≤ cc3 ∧ cc3 < 0xC0 := by
      simpa [utf8_internal.isContinuation, Bool.and_eq_true, decide_eq_true_eq] using hk3
    have hlast : (p ++ [bb, cc1, cc2, cc3]).getLast? = some cc3 := by
      rw [List.getLast?_append]
      rfl
    have hwf : WfChar [bb, cc1, cc2, cc3] := hc
    constructor
    · simp only [back32, backImpl, hlast]
      rw [if_neg (by omega)]
      rw [backLoop_wf derefChar32 p [bb, cc1, cc2, cc3] hp hwf (by simp)]
      rfl
    · simp only [backSpan, backImpl, hlast]
      rw [if_neg (by omega)]
      rw [backLoop_wf derefSpan p [bb, cc1, cc2, cc3] hp hwf (by simp)]
      simp only [derefSpan, hwf.2]
      rw [List.take_length]

theorem isCont_of (b : Nat) (h1 : 0x80 ≤ b) (h2 : b < 0xC0) :
    utf8_internal.isContinuation b = true := by
  simp only [utf8_internal.isContinuation, Bool.and_eq_true, decide_eq_true_eq]
  exact ⟨h1, h2⟩

/-- A well-formed decode consumes exactly the length announced by the
leading-byte table. -/
theorem decode_wf_bytes_oneCharLen (b : Nat) (r : List Nat)
    (h : (Decode (b :: r)).well_formed = true) :
    (Decode (b :: r)).bytes_seen = utf8_internal.OneCharLen b := by
  rcases decode_wf_cases (b :: r) h with ⟨b0, r0, heq, h1, hd⟩ |
    ⟨b0, c1, r0, heq, h1, h2, h3, h4, hd⟩ | ⟨b0, c1, c2, r0, heq, h1, h2, h3, h4, h5, h6, hd⟩ |
    ⟨b0, c1, c2, c3, r0, heq, h1, h2, h3, h4, h5, h6, h7, hd⟩
  · injection heq with hb hr
    subst hb
    rw [hd]
    simp only [utf8_internal.OneCharLen]
    rw [if_pos h1]
  · injection heq with hb hr
    subst hb
    rw [hd]
    simp only [utf8_internal.OneCharLen]
    rw [if_neg (by omega), if_neg (by omega), if_pos h2]
  · injection heq with hb hr
    subst hb
    rw [hd]
    simp only [utf8_internal.OneCharLen]
    rw [if_neg (by omega), if_neg (by omega), if_neg (by omega), if_pos h2]
  · injection heq with hb hr
    subst hb
    rw [hd]
    simp only [utf8_internal.OneCharLen]
    rw [if_neg (by omega), if_neg (by omega), if_neg (by omega), if_neg (by omega), if_pos h2]

theorem backLoop_isSome {α : Type} (g : List Nat → utf8_internal.DecodeResult → α)
    (s : List Nat) : ∀ sizes : List Nat,
    (∃ k, k ∈ sizes ∧ k ≤ s.length ∧ (Decode (s.drop (s.length - k))).bytes_seen = k) →
    ∃ a, backLoop g s sizes = some a := by
  intro sizes
  induction sizes with
  | nil =>
    rintro ⟨k, hk, -, -⟩
    simp at hk
  | cons size rest ih =>
    rintro ⟨k, hkmem, hkle, hkb⟩
    by_cases h1 : size ≤ s.length
    · by_cases h2 : (Decode (s.drop (s.length - size))).bytes_seen = size
      · exact ⟨_, backLoop_cons_accept g s size rest h1 h2⟩
      · rw [backLoop_cons_reject g s size rest h1 h2]
        apply ih
        rcases List.mem_cons.mp hkmem with hks | hkr
        · subst hks
          exact absurd hkb h2
        · exact ⟨k, hkr, hkle, hkb⟩
    · rw [backLoop_cons_skip g s size rest h1]
      apply ih
      rcases List.mem_cons.mp hkmem with hks | hkr
      · subst hks
        exact absurd hkle h1
      · exact ⟨k, hkr, hkle, hkb⟩

/-- Claim C1: for every scalar value v in [0, 0x10FFFF] outside the surrogate
range, decoding the UTF-8 encoding of v yields exactly the code point v, marked
well-formed, consuming precisely the encoding's length. -/
theorem decode_encode_round_trip (v : Nat) (h1 : v ≤ 0x10FFFF)
    (h2 : ¬(0xD800 ≤ v ∧ v ≤ 0xDFFF)) :
    Decode (Encode v) = ⟨v, (Encode v).length, true⟩ := by
  rcases Nat.lt_or_ge v 0x80 with hr | hr
  · have he : Encode v = [v] := by
      simp only [Encode]
      rw [if_neg h2, if_neg (by omega), if_pos hr]
    rw [he, utf8_internal.decode_ascii v [] hr]
    rfl
  rcases Nat.lt_or_ge v 0x800 with hr2 | hr2
  · have he : Encode v = [0xC0 + v / 64, 0x80 + v % 64] := by
      simp only [Encode]
      rw [if_neg h2, if_neg (by omega), if_neg (by omega), if_pos hr2]
    rw [he, utf8_internal.decode_two _ _ [] (by omega) (by omega)]
    rw [if_pos (isCont_of _ (by omega) (by omega))]
    rw [if_neg (by simp only [utf8_internal.assemble2]; omega)]
    simp only [utf8_internal.assemble2, List.length_cons, List.length_nil,
      utf8_internal.DecodeResult.mk.injEq]
    exact ⟨by omega, trivial, trivial⟩
  rcases Nat.lt_or_ge v 0x10000 with hr3 | hr3
  · have he : Encode v = [0xE0 + v / 4096, 0x80 + v / 64 % 64, 0x80 + v % 64] := by
      simp only [Encode]
      rw [if_neg h2, if_neg (by omega), if_neg (by omega), if_neg (by omega), if_pos hr3]
    rw [he, utf8_internal.decode_three _ _ _ [] (by omega) (by omega)]
    rw [if_pos (by
      rw [Bool.and_eq_true]
      exact ⟨isCont_of _ (by omega) (by omega), isCont_of _ (by omega) (by omega)⟩)]
    rw [if_neg (by simp only [utf8_internal.assemble3]; omega)]
    rw [if_neg (by simp only [utf8_internal.assemble3]; omega)]
    simp only [utf8_internal.assemble3, List.length_cons, List.length_nil,
      utf8_internal.DecodeResult.mk.injEq]
    exact ⟨by omega, trivial, trivial⟩
  · have he : Encode v =
        [0xF0 + v / 262144, 0x80 + v / 4096 % 64, 0x80 + v / 64 % 64, 0x80 + v % 64] := by
      simp only [Encode]
      rw [if_neg h2, if_neg (by omega), if_neg (by omega), if_neg (by omega), if_neg (by omega)]
    rw [he, utf8_internal.decode_four _ _ _ _ [] (by omega) (by omega)]
    rw [if_pos (by
      rw [Bool.and_eq_true, Bool.and_eq_true]
      exact ⟨⟨isCont_of _ (by omega) (by omega), isCont_of _ (by omega) (by omega)⟩,
        isCont_of _ (by omega) (by omega)⟩)]
    rw [if_neg (by simp only [utf8_internal.assemble4]; omega)]
    rw [if_neg (by simp only [utf8_internal.assemble4]; omega)]
    simp only [utf8_internal.assemble4, List.length_cons, List.length_nil,
      utf8_internal.DecodeResult.mk.injEq]
    exact ⟨by omega, trivial, trivial⟩

theorem decode_encode_round_trip_witness :
    (0x20AC : Nat) ≤ 0x10FFFF ∧
      Decode (Encode 0x20AC) = ⟨0x20AC, (Encode 0x20AC).length, true⟩ :=
  ⟨by decide, decode_encode_round_trip 0x20AC (by decide) (by decide)⟩

/-- Claim C2: for any byte buffer whatsoever, the forward character iterator
constructed at the start and repeatedly advanced by the previous decode's
bytes_seen reaches exactly the end position after finitely many steps, never
moving past it along the way. -/
theorem iterator_terminates_at_end (s : List Nat) :
    ∃ n, ((Utf8CharIterator.inc s)^[n] (beginIter s)).ptr = s.length ∧
      ∀ k, k ≤ n → ((Utf8CharIterator.inc s)^[k] (beginIter s)).ptr ≤ s.length := by
  have hinv : IterInv s (beginIter s) :=
    iterInv_decode s ⟨0, s.length, ⟨0, 0, false⟩⟩ rfl (Nat.zero_le _)
  exact iter_reaches s s.length (beginIter s) hinv (Nat.sub_le _ _)

theorem iterator_terminates_at_end_witness :
    ∃ n, ((Utf8CharIterator.inc [0xFF, 0x61, 0xC0])^[n] (beginIter [0xFF, 0x61, 0xC0])).ptr =
        ([0xFF, 0x61, 0xC0] : List Nat).length ∧
      ∀ k, k ≤ n →
        ((Utf8CharIterator.inc [0xFF, 0x61, 0xC0])^[k] (beginIter [0xFF, 0x61, 0xC0])).ptr ≤
          ([0xFF, 0x61, 0xC0] : List Nat).length :=
  iterator_terminates_at_end [0xFF, 0x61, 0xC0]

/-- Claim C3: on every non-empty window a failed decode consumes exactly one
byte; in particular the overlong sequence C0 80 and a truncated three-byte
sequence E3 81 at the end of the buffer both decode to
{U+FFFD, bytes_seen = 1, well_formed = false}. -/
theorem failed_decode_consumes_one_byte :
    (∀ w : List Nat, w ≠ [] → (Decode w).well_formed = false → (Decode w).bytes_seen = 1) ∧
    Decode [0xC0, 0x80] = ⟨0xFFFD, 1, false⟩ ∧
    Decode [0xE3, 0x81] = ⟨0xFFFD, 1, false⟩ := by
  refine ⟨?_, by decide, by decide⟩
  intro w _ h
  rw [utf8_internal.decode_fail_eq w h]
  rfl

theorem failed_decode_consumes_one_byte_witness :
    ([0x80] : List Nat) ≠ [] ∧ (Decode [0x80]).bytes_seen = 1 :=
  ⟨by decide, failed_decode_consumes_one_byte.1 [0x80] (by decide) (by decide)⟩

/-- Claim C4: on every valid non-empty string, FrontChar's first component is
the first element yielded by forward iteration of the substring-mode view, and
back() is the last element yielded by forward iteration, in both the substring
and code-point representation modes. -/
theorem front_back_agree_with_iteration (s : List Nat) (hv : strings.IsValidUtf8 s = true)
    (hne : s ≠ []) :
    (utf8AsCharsList s).head? = some (strings.FrontChar s).1 ∧
    backSpan s = (utf8AsCharsList s).getLast? ∧
    back32 s = (utf8AsChars32List s).getLast? := by
  have hvc := validChars_of_isValid s hv
  obtain ⟨p, c, hsplit, hp, hc, hsp, hcp⟩ := validChars_last_decomp s hvc hne
  refine ⟨?_, ?_, ?_⟩
  · rcases s with _ | ⟨b, rest⟩
    · exact absurd rfl hne
    have hcons : utf8AsCharsList (b :: rest) =
        derefSpan (b :: rest) (Decode (b :: rest)) ::
          utf8AsCharsList ((b :: rest).drop (Decode (b :: rest)).bytes_seen) :=
      viewYields_cons derefSpan b rest
    rw [strings.isValidUtf8_cons, Bool.and_eq_true] at hv
    rw [hcons]
    simp only [List.head?_cons, Option.some.injEq, derefSpan, strings.FrontChar]
    rw [decode_wf_bytes_oneCharLen b rest hv.1]
  · rw [hsp, hsplit]
    exact (back_correct p c hp hc).2
  · rw [hcp, hsplit]
    exact (back_correct p c hp hc).1

theorem front_back_agree_with_iteration_witness :
    strings.IsValidUtf8 [0x61, 0xC3, 0xA9] = true ∧ ([0x61, 0xC3, 0xA9] : List Nat) ≠ [] ∧
      ((utf8AsCharsList [0x61, 0xC3, 0xA9]).head? =
          some (strings.FrontChar [0x61, 0xC3, 0xA9]).1 ∧
        backSpan [0x61, 0xC3, 0xA9] = (utf8AsCharsList [0x61, 0xC3, 0xA9]).getLast? ∧
        back32 [0x61, 0xC3, 0xA9] = (utf8AsChars32List [0x61, 0xC3, 0xA9]).getLast?) :=
  ⟨by decide, by decide,
    front_back_agree_with_iteration [0x61, 0xC3, 0xA9] (by decide) (by decide)⟩

/-- Claim C5: whenever the buffer is non-empty and its final byte exceeds
0x7F, some candidate size in the trial order 3, 2, 4, 1 fits the buffer and
decodes to exactly its own size (at worst the one-byte fallback), so back()
returns a value in both modes and never reaches the unreachable branch. -/
theorem back_never_unreachable (s : List Nat) (b : Nat) (hlast : s.getLast? = some b)
    (hb : 0x7F < b) :
    (∃ k, k ∈ ([3, 2, 4, 1] : List Nat) ∧ k ≤ s.length ∧
      (Decode (s.drop (s.length - k))).bytes_seen = k) ∧
    (∃ v, back32 s = some v) ∧ (∃ c, backSpan s = some c) := by
  have hne : s ≠ [] := by
    intro h
    subst h
    simp at hlast
  obtain ⟨b2, hb2, hdrop⟩ := drop_length_sub_one s hne
  rw [hlast] at hb2
  injection hb2 with hb2eq
  subst hb2eq
  have hk1 : (Decode (s.drop (s.length - 1))).bytes_seen = 1 := by
    rw [hdrop, utf8_internal.decode_single_ge80 _ (by omega)]
    rfl
  have hlen1 : 1 ≤ s.length := by
    rcases s with _ | ⟨x, t⟩
    · exact absurd rfl hne
    · simp
  have hexists : ∃ k, k ∈ ([3, 2, 4, 1] : List Nat) ∧ k ≤ s.length ∧
      (Decode (s.drop (s.length - k))).bytes_seen = k := ⟨1, by simp, hlen1, hk1⟩
  refine ⟨hexists, ?_, ?_⟩
  · obtain ⟨a, ha⟩ := backLoop_isSome derefChar32 s [3, 2, 4, 1] hexists
    refine ⟨a, ?_⟩
    simp only [back32, backImpl, hlast]
    rw [if_neg (by omega)]
    exact ha
  · obtain ⟨a, ha⟩ := backLoop_isSome derefSpan s [3, 2, 4, 1] hexists
    refine ⟨a, ?_⟩
    simp only [backSpan, backImpl, hlast]
    rw [if_neg (by omega)]
    exact ha

theorem back_never_unreachable_witness :
    ([0xC3, 0xA9] : List Nat).getLast? = some 0xA9 ∧ (0x7F : Nat) < 0xA9 ∧
      ((∃ k, k ∈ ([3, 2, 4, 1] : List Nat) ∧ k ≤ ([0xC3, 0xA9] : List Nat).length ∧
        (Decode (([0xC3, 0xA9] : List Nat).drop (([0xC3, 0xA9] : List Nat).length - k))).bytes_seen
          = k) ∧
      (∃ v, back32 [0xC3, 0xA9] = some v) ∧ ∃ c, backSpan [0xC3, 0xA9] = some c) :=
  ⟨by decide, by decide, back_never_unreachable [0xC3, 0xA9] 0xA9 (by decide) (by decide)⟩

/-- Claim C6: for every valid string s and every threshold n, AtLeastCharsLen
returns the minimum of CharsLen s and n; in particular it returns 3 on "hello"
with threshold 3 and 2 on "hi" with threshold 10. -/
theorem atLeastCharsLen_min_charsLen :
    (∀ (s : List Nat) (n : Nat), strings.IsValidUtf8 s = true →
      strings.AtLeastCharsLen s n = min (strings.CharsLen s) n) ∧
    strings.AtLeastCharsLen [104, 101, 108, 108, 111] 3 = 3 ∧
    strings.AtLeastCharsLen [104, 105] 10 = 2 :=
  ⟨fun s n _ => strings.atLeastCharsLen_min n s, by decide, by decide⟩

theorem atLeastCharsLen_min_charsLen_witness :
    strings.IsValidUtf8 [104, 101, 108, 108, 111] = true ∧
      strings.AtLeastCharsLen [104, 101, 108, 108, 111] 3 =
        min (strings.CharsLen [104, 101, 108, 108, 111]) 3 :=
  ⟨by decide, atLeastCharsLen_min_charsLen.1 [104, 101, 108, 108, 111] 3 (by decide)⟩

/-- Claim C7: FrontChar on the empty string returns two empty views; on a
non-empty string it returns the first OneCharLen bytes clipped to the
available length paired with the remaining bytes, the two parts restoring the
input exactly. -/
theorem frontChar_split :
    strings.FrontChar [] = ([], []) ∧
    ∀ (b : Nat) (r : List Nat),
      (strings.FrontChar (b :: r)).1 = (b :: r).take (utf8_internal.OneCharLen b) ∧
      (strings.FrontChar (b :: r)).2 = (b :: r).drop (utf8_internal.OneCharLen b) ∧
      (strings.FrontChar (b :: r)).1.length =
        min (utf8_internal.OneCharLen b) (b :: r).length ∧
      (strings.FrontChar (b :: r)).1 ++ (strings.FrontChar (b :: r)).2 = b :: r := by
  refine ⟨rfl, ?_⟩
  intro b r
  refine ⟨rfl, rfl, ?_, List.take_append_drop _ _⟩
  simp [strings.FrontChar, List.length_take]

theorem frontChar_split_witness :
    (strings.FrontChar [0xE2, 0x82]).1 =
        ([0xE2, 0x82] : List Nat).take (utf8_internal.OneCharLen 0xE2) ∧
      (strings.FrontChar [0xE2, 0x82]).2 =
        ([0xE2, 0x82] : List Nat).drop (utf8_internal.OneCharLen 0xE2) ∧
      (strings.FrontChar [0xE2, 0x82]).1.length =
        min (utf8_internal.OneCharLen 0xE2) ([0xE2, 0x82] : List Nat).length ∧
      (strings.FrontChar [0xE2, 0x82]).1 ++ (strings.FrontChar [0xE2, 0x82]).2 =
        [0xE2, 0x82] :=
  frontChar_split.2 0xE2 [0x82]

/-- Claim C8: two forward iterators compare equal exactly when their positions
are equal, the cached decode result playing no part, so an iterator advanced
to a position equals one constructed directly at that position. -/
theorem iterator_eq_iff_positions_eq :
    (∀ i j : Utf8CharIterator, Utf8CharIterator.iterEq i j = true ↔ i.ptr = j.ptr) ∧
    (∀ i j : Utf8CharIterator,
      Utf8CharIterator.iterNe i j = !(Utf8CharIterator.iterEq i j)) ∧
    (∀ (s : List Nat) (n : Nat),
      Utf8CharIterator.iterEq ((Utf8CharIterator.inc s)^[n] (beginIter s))
        (Utf8CharIterator.make s (((Utf8CharIterator.inc s)^[n] (beginIter s)).ptr)
          s.length) = true) := by
  refine ⟨fun i j => by simp [Utf8CharIterator.iterEq], fun i j => rfl, ?_⟩
  intro s n
  simp [Utf8CharIterator.iterEq, Utf8CharIterator.make, iterDecode_ptr]

theorem iterator_eq_iff_positions_eq_witness :
    Utf8CharIterator.iterEq ((Utf8CharIterator.inc [0x61, 0xC3, 0xA9])^[1]
        (beginIter [0x61, 0xC3, 0xA9]))
      (Utf8CharIterator.make [0x61, 0xC3, 0xA9]
        (((Utf8CharIterator.inc [0x61, 0xC3, 0xA9])^[1] (beginIter [0x61, 0xC3, 0xA9])).ptr)
        ([0x61, 0xC3, 0xA9] : List Nat).length) = true :=
  iterator_eq_iff_positions_eq.2.2 [0x61, 0xC3, 0xA9] 1

/-- Claim C9: for every byte buffer, valid or not, the substring-mode view
yields non-empty contiguous spans whose concatenation is exactly the original
buffer, so ill-formed bytes are passed through verbatim. -/
theorem utf8AsChars_spans_exact (s : List Nat) :
    (utf8AsCharsList s).flatten = s ∧ ∀ c ∈ utf8AsCharsList s, c ≠ [] :=
  utf8AsCharsList_flatten s

theorem utf8AsChars_spans_exact_witness :
    (utf8AsCharsList [0x61, 0xFF, 0xC3, 0xA9]).flatten = [0x61, 0xFF, 0xC3, 0xA9] ∧
      ([0xFF] : List Nat) ≠ [] :=
  ⟨(utf8AsChars_spans_exact [0x61, 0xFF, 0xC3, 0xA9]).1,
    (utf8AsChars_spans_exact [0x61, 0xFF, 0xC3, 0xA9]).2 [0xFF] (by decide)⟩

/-- Claim C10: the view comparison operators delegate to the underlying
byte-sequence comparators: equality holds exactly on equal byte contents, the
strict order is lexicographic on bytes, and the remaining operators are the
induced complements and swaps. -/
theorem view_comparators_delegate (v w : Utf8AsCharsBase) :
    (viewEq v w = true ↔ v.sv = w.sv) ∧
    (viewNe v w = !viewEq v w) ∧
    (viewLt v w = true ↔ List.Lex (· < ·) v.sv w.sv) ∧
    (viewLe v w = (viewLt v w || viewEq v w)) ∧
    (viewGt v w = viewLt w v) ∧
    (viewGe v w = viewLe w v) := by
  refine ⟨?_, ?_, svLt_iff_lex v.sv w.sv, ?_, rfl, rfl⟩
  · simp [viewEq]
  · rfl
  · exact svLe_eq v.sv w.sv

theorem view_comparators_delegate_witness :
    viewLt ⟨[0x61]⟩ ⟨[0x61, 0x62]⟩ = true ↔
      List.Lex (· < ·) ([0x61] : List Nat) [0x61, 0x62] :=
  (view_comparators_delegate ⟨[0x61]⟩ ⟨[0x61, 0x62]⟩).2.2.1

end mozc
